import Mathlib

/-!
Verification of the hybrid-retrieval merge engine of this repository
(`supabase/functions/textbook_search/index.ts` and the sci-search handler
variant).  Every definition below is a shallow embedding of the
corresponding TypeScript function, translated statement by statement:

* JavaScript strings are Lean `String`s, JavaScript `Set` objects are
  Lean lists with insertion-order-preserving `addUnique` / `filter`
  (JS `Set` iterates in insertion order; `delete` keeps the order of the
  remaining elements).
* JavaScript numbers that only ever hold integers in the source
  (chunk indices, `topK`, `extK`, epoch timestamps, filter bounds) are
  `Nat` / `Int`.
* The regex `/_(\d+)$/` is modelled by `matchIdSuffix`: it matches
  exactly when the substring after the last underscore is a nonempty
  digit run, capturing that run (see `splitLast`).
* Fallible code (the sci-search citation builder, which throws) returns
  `Except`.
-/

/-! ### Identifier model: decimal digits and the `/_(\d+)$/` regex -/

/-- Decimal digit character, as produced by JavaScript number-to-string
conversion for a single digit value.  Values `≥ 10` never occur. -/
def digitChar : Nat → Char
  | 0 => '0' | 1 => '1' | 2 => '2' | 3 => '3' | 4 => '4'
  | 5 => '5' | 6 => '6' | 7 => '7' | 8 => '8' | 9 => '9'
  | _ => '*'

/-- Decimal digits of `n`, most significant first, prepended to `acc`.
Fuel-based so that the definition is structurally recursive (any
`fuel > n` is enough, see `natDigitsFuel_eq`). -/
def natDigitsFuel : Nat → Nat → List Char → List Char
  | 0, _, acc => acc
  | fuel + 1, n, acc =>
    if n < 10 then digitChar n :: acc
    else natDigitsFuel fuel (n / 10) (digitChar (n % 10) :: acc)

/-- JavaScript `String(n)` / template-literal conversion of a
non-negative integer: its decimal representation. -/
def natRepr (n : Nat) : String := String.mk (natDigitsFuel (n + 1) n [])

/-- JavaScript `parseInt(s, 10)` on a string of decimal digits. -/
def digitsToNat (cs : List Char) : Nat :=
  cs.foldl (fun a c => a * 10 + (c.toNat - 48)) 0

/-- Split a character list at its last underscore: returns
`(prefix including the underscore, suffix after it)`, or `none` when no
underscore occurs.  This is the decomposition the regex `/_(\d+)$/`
performs on a chunk id. -/
def splitLast : List Char → Option (List Char × List Char)
  | [] => none
  | c :: rest =>
    match splitLast rest with
    | some (p, s) => some (c :: p, s)
    | none => if c = '_' then some (['_'], rest) else none

/-- Model of `id.match(/_(\d+)$/)` together with
`id.substring(0, id.lastIndexOf('_') + 1)` and `parseInt(match[1], 10)`:
on success returns the prefix (including the trailing underscore) and
the parsed chunk index.  The regex matches exactly when the substring
after the last underscore is nonempty and all digits. -/
def matchIdSuffix (id : String) : Option (String × Nat) :=
  match splitLast id.data with
  | none => none
  | some (p, s) =>
    if !s.isEmpty && s.all Char.isDigit then some (String.mk p, digitsToNat s)
    else none

/-- Function `getIdRange` from `textbook_search/index.ts` (lines 119-129): for an
id matching `/_(\d+)$/` with base index `baseId`, the ids
`prefix_i` for `i` from `Math.max(0, baseId - extK)` to `baseId + extK`
(truncated `Nat` subtraction models the `Math.max(0, ...)` clamp);
otherwise the empty set.  The JS `Set` is returned as the list of
elements in insertion order. -/
def getIdRange (id : String) (extK : Nat) : List String :=
  match matchIdSuffix id with
  | none => []
  | some (pre, baseId) =>
    (List.range' (baseId - extK) (baseId + extK + 1 - (baseId - extK))).map
      (fun i => pre ++ natRepr i)

/-- Model of `parseInt(doc.id.match(/_(\d+)$/)?.[1] ?? '0', 10)`: the sort index
of a chunk id, defaulting to 0 when the pattern does not match. -/
def sortIdOf (id : String) : Nat :=
  match matchIdSuffix id with
  | some (_, n) => n
  | none => 0


/-! ### Filter translator (`textbook_search`) -/

/-- One `{gte?, lte?}` range value of `DateFilterType`; `none` models an
absent key. -/
structure RangeVal where
  gte : Option Int
  lte : Option Int
deriving DecidableEq, Repr

/-- One element of `FiltersType`: `{terms?: {field: string[]}, range?:
{field: {gte?, lte?}}}`.  JS objects iterated with `for..in` are
association lists in insertion order. -/
structure FiltersItem where
  terms : Option (List (String × List String))
  range : Option (List (String × RangeVal))
deriving DecidableEq, Repr

/-- One conjunct of the Pinecone filter: `{field: {$in?, $gte?, $lte?}}`.
`cin` is the `$in` key (`in` is reserved in Lean). -/
structure PCCondition where
  field : String
  cin : Option (List String)
  gte : Option Int
  lte : Option Int
deriving DecidableEq, Repr

/-- The Pinecone filter shape `{$and: [...]}`. -/
structure PCFilter where
  and : List PCCondition
deriving DecidableEq, Repr

/-- JavaScript truthiness of an optional number: `undefined`, `0` (and
`NaN`, not representable here) are falsy, every other number truthy. -/
def truthyInt : Option Int → Bool
  | some v => decide (v ≠ 0)
  | none => false

/-- Function `filterToPCQuery` (lines 82-117): terms fields become `$in`
conditions; range fields keep a bound only when its value is truthy
(`if (item.range[field].gte)` / `lte`). -/
def filterToPCQuery (filters : List FiltersItem) : PCFilter :=
  { and := filters.flatMap (fun item =>
      (match item.terms with
       | some t => t.map (fun ft =>
           { field := ft.1, cin := some ft.2, gte := none, lte := none })
       | none => []) ++
      (match item.range with
       | some r => r.map (fun fr =>
           { field := fr.1, cin := none,
             gte := if truthyInt fr.2.gte then fr.2.gte else none,
             lte := if truthyInt fr.2.lte then fr.2.lte else none })
       | none => [])) }

/-- Lines 156-167: `const filters = []`, then when `filter || datefilter`
is truthy, push `{terms: filter}` and/or `{range: datefilter}`. -/
def buildFilters (filter : Option (List (String × List String)))
    (datefilter : Option (List (String × RangeVal))) : List FiltersItem :=
  if filter.isSome || datefilter.isSome then
    (match filter with
     | some f => [{ terms := some f, range := none }]
     | none => []) ++
    (match datefilter with
     | some d => [{ terms := none, range := some d }]
     | none => [])
  else []

/-- JavaScript truthiness of an array value: an array object is always
truthy, even when it is empty.  This is the test the source performs in
`filters ? ... : ...` (line 171) and `if (filters)` (line 210), where
`filters` is the array built by `buildFilters`. -/
def jsTruthyArr (filters : List FiltersItem) : Bool :=
  let _ := filters
  true

/-- The OpenSearch `bool` query of the request body (lines 170-190):
one `match: {text: query}` clause per full-text query string, and the
filter clause exactly as the source attaches it. -/
structure BoolQuery where
  should : List String
  minimum_should_match : Nat
  filter : Option (List FiltersItem)
deriving DecidableEq, Repr

/-- The OpenSearch request body `{query, size}`. -/
structure OSBody where
  query : BoolQuery
  size : Nat
deriving DecidableEq, Repr

/-- Lines 170-190: the keyword-store query body.  The conditional
`filters ? {..., filter: filters} : {...}` tests the JS truthiness of
the `filters` array. -/
def osBody (full_text_query : List String) (topK : Nat)
    (filters : List FiltersItem) : OSBody :=
  { query :=
      if jsTruthyArr filters then
        { should := full_text_query, minimum_should_match := 1,
          filter := some filters }
      else
        { should := full_text_query, minimum_should_match := 1,
          filter := none },
    size := topK }

/-- The Pinecone `QueryOptions` record (lines 195-208). -/
structure QueryOptions where
  vector : List Float
  topK : Nat
  includeMetadata : Bool
  includeValues : Bool
  filter : Option PCFilter

/-- Lines 203-212: the vector-store query options; `if (filters)` again
tests the truthiness of the `filters` array before attaching
`filterToPCQuery filters`. -/
def pcQueryOptions (searchVector : List Float) (topK : Nat)
    (filters : List FiltersItem) : QueryOptions :=
  let base : QueryOptions :=
    { vector := searchVector, topK := topK, includeMetadata := true,
      includeValues := false, filter := none }
  if jsTruthyArr filters then { base with filter := some (filterToPCQuery filters) }
  else base


/-! ### Union/dedup reducer (`textbook_search`, lines 231-269) -/

/-- Pinecone match metadata, with the field names the source reads
(`doc.metadata.rec_id`, `...page_number`, `...isbn_number`, `...text`,
`...title`, `...company_name`, `...publication_date`). -/
structure PCMeta where
  rec_id : String
  page_number : Int
  isbn_number : String
  text : String
  title : String
  company_name : String
  publication_date : Int
deriving DecidableEq, Repr

/-- One element of `pineconeResponse.matches`: `{id, metadata?}`. -/
structure SimHit where
  id : String
  metadata : Option PCMeta
deriving DecidableEq, Repr

/-- The `_source` record of an OpenSearch hit. -/
structure OSSource where
  rec_id : String
  page_number : Int
  isbn_number : String
  text : String
  title : String
  author : String
  publication_date : Int
deriving DecidableEq, Repr

/-- One element of `fulltextResponse.body.hits.hits`: `{_id, _source}`. -/
structure KwHit where
  id : String
  source : OSSource
deriving DecidableEq, Repr

/-- The `Document` interface (lines 131-140). -/
structure Document where
  sort_id : Nat
  id : String
  page_number : Int
  text : String
  title : String
  author : String
  isbn_number : String
  publication_date : Int
deriving DecidableEq, Repr, Inhabited

/-- The document pushed for a Pinecone match (lines 239-248): note
`author` is taken from `metadata.company_name`. -/
def docOfSim (h : SimHit) (m : PCMeta) : Document :=
  { sort_id := sortIdOf h.id, id := m.rec_id, page_number := m.page_number,
    isbn_number := m.isbn_number, text := m.text, title := m.title,
    author := m.company_name, publication_date := m.publication_date }

/-- The document pushed for an OpenSearch hit (lines 258-267) and for an
expansion hit (lines 298-307): all fields from `_source`. -/
def docOfKw (h : KwHit) : Document :=
  { sort_id := sortIdOf h.id, id := h.source.rec_id,
    page_number := h.source.page_number, isbn_number := h.source.isbn_number,
    text := h.source.text, title := h.source.title,
    author := h.source.author, publication_date := h.source.publication_date }

/-- JS `Set.prototype.add` on a set represented as its insertion-order
element list. -/
def addUnique (l : List String) (x : String) : List String :=
  if l.contains x then l else l ++ [x]

/-- Reducer state: `id_set` (insertion-order list) and `unique_docs`.
Each pushed document is paired with the chunk id it was keyed on
(`doc.id` / `doc._id`); the source keeps that id only implicitly,
through the `id_set` membership test guarding the push. -/
structure RState where
  ids : List String
  docs : List (String × Document)
deriving DecidableEq, Repr

/-- The first reducer loop body (lines 234-250): every Pinecone match id
enters `id_set`; a document is pushed only when `doc.metadata` is
present.  No seen-check is performed for Pinecone matches. -/
def simStep (st : RState) (h : SimHit) : RState :=
  { ids := addUnique st.ids h.id,
    docs :=
      match h.metadata with
      | some m => st.docs ++ [(h.id, docOfSim h m)]
      | none => st.docs }

/-- The second reducer loop body (lines 253-269): an OpenSearch hit is
pushed only when its id is not yet in `id_set`. -/
def kwStep (st : RState) (h : KwHit) : RState :=
  if st.ids.contains h.id then st
  else { ids := st.ids ++ [h.id], docs := st.docs ++ [(h.id, docOfKw h)] }

/-- The full union/dedup reducer: similarity pass then keyword pass. -/
def dedupState (simHits : List SimHit) (kwHits : List KwHit) : RState :=
  kwHits.foldl kwStep (simHits.foldl simStep { ids := [], docs := [] })

/-- The `unique_docs` list after both reducer loops, each document paired with
its chunk id. -/
def dedupDocs (simHits : List SimHit) (kwHits : List KwHit) :
    List (String × Document) :=
  (dedupState simHits kwHits).docs

/-! ### Context expander (`textbook_search`, lines 271-293) -/

/-- The expansion candidate ids: the union of `getIdRange(id, extK)`
over `id_set` (lines 272-278), with every member of `id_set` then
deleted (lines 280-282).  JS `Set.delete` keeps the insertion order of
the remaining elements, hence the `filter`. -/
def expansionCandidates (idSet : List String) (extK : Nat) : List String :=
  let ext := idSet.foldl (fun acc id => (getIdRange id extK).foldl addUnique acc) []
  ext.filter (fun c => !(idSet.contains c))

/-! ### Group merger (`textbook_search`, lines 319-354) -/

/-- The sort comparator (lines 319-323) as a relation:
`a.id < b.id ? -1 : a.id > b.id ? 1 : a.sort_id - b.sort_id`, i.e. `a`
comes no later than `b` iff `a.id < b.id`, or the ids are equal and
`a.sort_id ≤ b.sort_id`. -/
def docLE (a b : Document) : Prop :=
  a.id < b.id ∨ (a.id = b.id ∧ a.sort_id ≤ b.sort_id)

instance : DecidableRel docLE := fun a b =>
  inferInstanceAs (Decidable (a.id < b.id ∨ (a.id = b.id ∧ a.sort_id ≤ b.sort_id)))

instance : IsTotal Document docLE where
  total a b := by
    rcases lt_trichotomy a.id b.id with h | h | h
    · exact Or.inl (Or.inl h)
    · rcases Nat.le_total a.sort_id b.sort_id with h2 | h2
      · exact Or.inl (Or.inr ⟨h, h2⟩)
      · exact Or.inr (Or.inr ⟨h.symm, h2⟩)
    · exact Or.inr (Or.inl h)

instance : IsTrans Document docLE where
  trans a b c hab hbc := by
    rcases hab with hab | ⟨hab, hab2⟩
    · rcases hbc with hbc | ⟨hbc, _⟩
      · exact Or.inl (lt_trans hab hbc)
      · exact Or.inl (hbc ▸ hab)
    · rcases hbc with hbc | ⟨hbc, hbc2⟩
      · exact Or.inl (hab ▸ hbc)
      · exact Or.inr ⟨hab.trans hbc, le_trans hab2 hbc2⟩

/-- Model of `unique_docs.sort(comparator)`: a stable sorting
algorithm (JS engines implement a stable sort), here insertion sort. -/
def sortDocs (docs : List Document) : List Document :=
  docs.insertionSort docLE

/-- Group flush (lines 332-339 / 348-354), closing the current
group: push `{...currentGroup[0], text: currentGroup texts joined by a
newline}`. -/
def flushGroup (g : List Document) (acc : List Document) : List Document :=
  match g with
  | [] => acc
  | d :: _ =>
    acc ++ [{ d with text := String.intercalate "\n" (g.map Document.text) }]

/-- The grouping loop (lines 330-345): accumulate consecutive documents
sharing an id into `currentGroup`, flushing on id change, then flush the
final group. -/
def combineLoop : List Document → List Document → List Document →
    Option String → List Document
  | [], acc, g, _ => flushGroup g acc
  | d :: rest, acc, g, cur =>
    if some d.id = cur then combineLoop rest acc (g ++ [d]) cur
    else combineLoop rest (flushGroup g acc) [d] (some d.id)

/-- The `combinedDocs` computation (lines 326-354): the single grouping pass over the
sorted document list. -/
def combineDocs (docs : List Document) : List Document :=
  combineLoop docs [] [] none

/-- Spec-side relation for the grouping-order claim: ordering the group
members by ascending sort index. -/
def bySortId (a b : Document) : Prop := a.sort_id ≤ b.sort_id

instance : DecidableRel bySortId := fun a b =>
  inferInstanceAs (Decidable (a.sort_id ≤ b.sort_id))

instance : IsTotal Document bySortId where
  total a b := Nat.le_total a.sort_id b.sort_id

instance : IsTrans Document bySortId where
  trans _ _ _ hab hbc := Nat.le_trans hab hbc

/-- Spec-side description ("texts joined with a newline in ascending
sortIndex order"): the group members sorted by sort index alone, to be
compared with what the source's sort-then-group pipeline produces. -/
def specAscendingBySortIndex (docs : List Document) : List Document :=
  docs.insertionSort bySortId

/-- Strict sort-index ordering, used to identify the two sorted lists. -/
def strictBySortId (a b : Document) : Prop := a.sort_id < b.sort_id

instance : IsAntisymm Document strictBySortId where
  antisymm _ _ h h2 := absurd (Nat.lt_trans h h2) (Nat.lt_irrefl _)

/-! ### Cross-reference citation variant (the sci-search handler) -/

/-- A `journals` relational record: `{doi, title, authors}`. -/
structure JournalData where
  doi : String
  title : String
  authors : List String
deriving DecidableEq, Repr

/-- One entry of the sci-search `unique_docs` list (lines 128-141 of the
handler): `{id: String(doi), text, journal, date}` with `date` already
formatted to `YYYY-MM`. -/
structure SciDoc where
  id : String
  text : String
  journal : String
  date : String
deriving DecidableEq, Repr

/-- One entry of the final response: `{content, source}`. -/
structure OutEntry where
  content : String
  source : String
deriving DecidableEq, Repr

/-- The citation string of the cross-reference variant (lines 152-157):
`[{title}, {journal}. {authors joined by a comma}. {date}.]
(https://doi.org/{doi})`. -/
def mkSciSource (record : JournalData) (doc : SciDoc) : String :=
  "[" ++ record.title ++ ", " ++ doc.journal ++ ". " ++
    String.intercalate ", " record.authors ++ ". " ++ doc.date ++
    ".](https://doi.org/" ++ record.doi ++ ")"

/-- Model of `pgResponse?.find((r) => r.doi === doc.id)`: `none` when the batch
lookup returned `null`, otherwise the first record with matching doi. -/
def lookupRecord (pg : Option (List JournalData)) (i : String) :
    Option JournalData :=
  match pg with
  | none => none
  | some l => l.find? (fun r => r.doi == i)

/-- The batching loop of `getMeta` (lines 40-52): slice 400 dois, issue
one relational query, return `null` as soon as one batch call errors,
otherwise concatenate the batch results.  The store is passed as the
function `call` from a batch of dois to its result. -/
def getMetaLoop (call : List String → Except Unit (List JournalData))
    (ds : List String) : Option (List JournalData) :=
  if h : ds.isEmpty then some []
  else
    match call (ds.take 400) with
    | .error _ => none
    | .ok batch =>
      match getMetaLoop call (ds.drop 400) with
      | none => none
      | some rest => some (batch ++ rest)
termination_by ds.length
decreasing_by
  simp only [List.length_drop]
  have hne : ds ≠ [] := by
    intro hnil
    rw [hnil] at h
    exact h rfl
  have hpos : 0 < ds.length := List.length_pos.mpr hne
  omega

/-- Function `getMeta` of the sci-search handler (lines 36-55). -/
def getMeta (call : List String → Except Unit (List JournalData))
    (doi : List String) : Option (List JournalData) :=
  getMetaLoop call doi

/-- Model of `Array.from(new Set(unique_docs.map((doc) => doc.id)))` (line 143):
the doc ids deduplicated in insertion order. -/
def uniqueIds (docs : List SciDoc) : List String :=
  docs.foldl (fun acc d => addUnique acc d.id) []

/-- The citation-building map (lines 148-162): per document, look up its
doi; on a hit emit `{content, source}`, on a miss throw
`'Record not found'` — aborting the whole request.  JS `map` with a
`throw` is `Except`-valued structural recursion. -/
def sciDocList (pg : Option (List JournalData)) :
    List SciDoc → Except String (List OutEntry)
  | [] => .ok []
  | doc :: rest =>
    match lookupRecord pg doc.id with
    | some record =>
      match sciDocList pg rest with
      | .ok tail => .ok ({ content := doc.text, source := mkSciSource record doc } :: tail)
      | .error e => .error e
    | none => .error "Record not found"

/-- The sci-search tail after the vector query (lines 143-164): batch
lookup of all unique dois, then the citation-building map. -/
def sciSearchTail (call : List String → Except Unit (List JournalData))
    (docs : List SciDoc) : Except String (List OutEntry) :=
  sciDocList (getMeta call (uniqueIds docs)) docs

/-- Reference for the decimal-digit roundtrip: consuming the digits of
`n` onto an accumulator `v`, with the same fuel discipline as
`natDigitsFuel`. -/
def consumeFuel : Nat → Nat → Nat → Nat
  | 0, v, _ => v
  | fuel + 1, v, n =>
    if n < 10 then v * 10 + n
    else consumeFuel fuel v (n / 10) * 10 + n % 10

/-! ### Lemmas: decimal representation -/

lemma digitChar_val {d : Nat} (h : d < 10) : (digitChar d).toNat - 48 = d := by
  interval_cases d <;> decide

lemma digitChar_isDigit {d : Nat} (h : d < 10) : (digitChar d).isDigit = true := by
  interval_cases d <;> decide

lemma natDigitsFuel_mem :
    ∀ (fuel n : Nat) (acc : List Char), ∀ c ∈ natDigitsFuel fuel n acc,
      c ∈ acc ∨ c.isDigit = true := by
  intro fuel
  induction fuel with
  | zero => intro n acc c hc; exact Or.inl hc
  | succ f ih =>
    intro n acc c hc
    rw [natDigitsFuel] at hc
    by_cases h : n < 10
    · rw [if_pos h] at hc
      rcases List.mem_cons.mp hc with hc | hc
      · exact Or.inr (hc ▸ digitChar_isDigit h)
      · exact Or.inl hc
    · rw [if_neg h] at hc
      rcases ih (n / 10) (digitChar (n % 10) :: acc) c hc with hc | hc
      · rcases List.mem_cons.mp hc with hc | hc
        · exact Or.inr (hc ▸ digitChar_isDigit (Nat.mod_lt n (by omega)))
        · exact Or.inl hc
      · exact Or.inr hc

lemma natDigitsFuel_ne_nil :
    ∀ (fuel n : Nat) (acc : List Char), n < fuel →
      natDigitsFuel fuel n acc ≠ [] := by
  intro fuel
  induction fuel with
  | zero => intro n acc h; omega
  | succ f ih =>
    intro n acc h
    rw [natDigitsFuel]
    by_cases h10 : n < 10
    · rw [if_pos h10]; exact List.cons_ne_nil _ _
    · rw [if_neg h10]
      exact ih (n / 10) _ (by omega)

lemma foldl_natDigitsFuel :
    ∀ (fuel n : Nat), n < fuel → ∀ (acc : List Char) (v : Nat),
      List.foldl (fun a c => a * 10 + (c.toNat - 48)) v (natDigitsFuel fuel n acc) =
        List.foldl (fun a c => a * 10 + (c.toNat - 48)) (consumeFuel fuel v n) acc := by
  intro fuel
  induction fuel with
  | zero => intro n h; omega
  | succ f ih =>
    intro n h acc v
    rw [natDigitsFuel, consumeFuel]
    by_cases h10 : n < 10
    · rw [if_pos h10, if_pos h10]
      simp only [List.foldl_cons, digitChar_val h10]
    · rw [if_neg h10, if_neg h10]
      have hlt : n / 10 < f := by
        have := Nat.div_lt_self (by omega : 0 < n) (by omega : 1 < 10)
        omega
      rw [ih (n / 10) hlt]
      simp only [List.foldl_cons, digitChar_val (Nat.mod_lt n (by omega) : n % 10 < 10)]

lemma consumeFuel_zero : ∀ (fuel n : Nat), n < fuel → consumeFuel fuel 0 n = n := by
  intro fuel
  induction fuel with
  | zero => intro n h; omega
  | succ f ih =>
    intro n h
    rw [consumeFuel]
    by_cases h10 : n < 10
    · rw [if_pos h10]; omega
    · rw [if_neg h10]
      have hlt : n / 10 < f := by
        have := Nat.div_lt_self (by omega : 0 < n) (by omega : 1 < 10)
        omega
      rw [ih (n / 10) hlt]
      have := Nat.div_add_mod n 10
      omega

lemma digitsToNat_natRepr (n : Nat) : digitsToNat (natRepr n).data = n := by
  show List.foldl _ 0 (natDigitsFuel (n + 1) n []) = n
  rw [foldl_natDigitsFuel (n + 1) n (by omega), consumeFuel_zero (n + 1) n (by omega)]
  rfl

lemma natRepr_data_ne_nil (n : Nat) : (natRepr n).data ≠ [] :=
  natDigitsFuel_ne_nil (n + 1) n [] (by omega)

lemma natRepr_all_digits (n : Nat) : ∀ c ∈ (natRepr n).data, c.isDigit = true := by
  intro c hc
  rcases natDigitsFuel_mem (n + 1) n [] c hc with hc | hc
  · exact absurd hc (List.not_mem_nil c)
  · exact hc

lemma isDigit_ne_underscore {c : Char} (h : c.isDigit = true) : c ≠ '_' := by
  intro hc
  rw [hc] at h
  exact absurd h (by decide)

/-! ### Lemmas: the suffix regex on canonical ids -/

lemma splitLast_eq_none {l : List Char} (h : ∀ c ∈ l, c ≠ '_') :
    splitLast l = none := by
  induction l with
  | nil => rfl
  | cons c rest ih =>
    rw [splitLast, ih (fun x hx => h x (List.mem_cons_of_mem c hx))]
    rw [if_neg (h c (List.mem_cons_self c rest))]

lemma splitLast_append (p : List Char) {s : List Char}
    (h : ∀ c ∈ s, c ≠ '_') :
    splitLast (p ++ '_' :: s) = some (p ++ ['_'], s) := by
  induction p with
  | nil =>
    rw [List.nil_append, splitLast, splitLast_eq_none h, if_pos rfl]
    rfl
  | cons c p ih =>
    rw [List.cons_append, splitLast, ih]
    rfl

lemma mk_append (l m : List Char) :
    String.mk l ++ String.mk m = String.mk (l ++ m) := rfl

lemma matchIdSuffix_canonical (pre : String) (N : Nat) :
    matchIdSuffix (pre ++ "_" ++ natRepr N) = some (pre ++ "_", N) := by
  have hdata : (pre ++ "_" ++ natRepr N).data = pre.data ++ '_' :: (natRepr N).data := by
    rw [String.data_append, String.data_append]
    simp
  have hsplit : splitLast (pre ++ "_" ++ natRepr N).data =
      some (pre.data ++ ['_'], (natRepr N).data) := by
    rw [hdata]
    exact splitLast_append pre.data
      (fun c hc => isDigit_ne_underscore (natRepr_all_digits N c hc))
  rw [matchIdSuffix, hsplit]
  have hne : ((natRepr N).data).isEmpty = false := by
    cases h : (natRepr N).data with
    | nil => exact absurd h (natRepr_data_ne_nil N)
    | cons c l => rfl
  have hall : ((natRepr N).data).all Char.isDigit = true :=
    List.all_eq_true.mpr (natRepr_all_digits N)
  have hpre : String.mk (pre.data ++ ['_']) = pre ++ "_" := by
    cases pre
    rfl
  dsimp only
  rw [hne, hall, digitsToNat_natRepr, hpre]
  rfl

/-! ### Lemmas: range windows -/

lemma range_filter_eq_range' :
    ∀ (n a : Nat), (List.range n).filter (fun i => decide (a ≤ i)) =
      List.range' a (n - a) := by
  intro n
  induction n with
  | zero => intro a; simp
  | succ n ih =>
    intro a
    rw [List.range_succ, List.filter_append, ih a]
    by_cases h : a ≤ n
    · have h1 : List.filter (fun i => decide (a ≤ i)) [n] = [n] := by
        simp [List.filter, h]
      rw [h1]
      have h2 : n + 1 - a = (n - a) + 1 := by omega
      rw [h2, List.range'_concat]
      have h3 : a + 1 * (n - a) = n := by omega
      rw [h3]
    · have h1 : List.filter (fun i => decide (a ≤ i)) [n] = [] := by
        simp [List.filter, h]
      have h2 : n - a = 0 := by omega
      have h3 : n + 1 - a = 0 := by omega
      rw [h1, h2, h3, List.append_nil]

/-! ### Claim C1 -/

/-- Claim C1 (code bug witness): when the caller supplies no filter and
no date filter, the code still attaches a filter clause to both backend
queries, contrary to the claim.  The check `filters ? ... : ...` /
`if (filters)` tests a JavaScript array, which is truthy even when
empty, so the keyword-store body carries `filter: []` and the
vector-store options carry `filter: {$and: []}`. -/
theorem noFilter_filter_clause_present :
    (osBody ["q"] 5 (buildFilters none none)).query.filter = some [] ∧
    (pcQueryOptions [] 5 (buildFilters none none)).filter = some { and := [] } :=
  ⟨rfl, rfl⟩

/-! ### Claim C4 -/

/-- Claim C4 counterexample: `windowOf(chunkId, 0)` is not the empty
set; on `"doc123_5"` with `k = 0` the code returns the singleton
`{"doc123_5"}`. -/
theorem getIdRange_zero_not_empty :
    ¬ (getIdRange "doc123_5" 0 = []) := by decide

/-- Claim C4 (amended): for every chunk id, `windowOf(chunkId, 0)`
yields the singleton containing the id rebuilt from its parsed prefix
and index when the id matches the `_N` suffix pattern, and the empty
set when it does not; the function is pure and total (it is a total
Lean function). -/
theorem getIdRange_zero (id : String) :
    getIdRange id 0 =
      match matchIdSuffix id with
      | some pn => [pn.1 ++ natRepr pn.2]
      | none => [] := by
  rw [getIdRange]
  cases h : matchIdSuffix id with
  | none => rfl
  | some pn =>
    obtain ⟨pre, n⟩ := pn
    dsimp only
    have h1 : n - 0 = n := by omega
    have h2 : n + 0 + 1 - n = 1 := by omega
    rw [h1, h2, List.range'_one]
    rfl

/-! ### Claim C5 -/

/-- Claim C5: for a chunk id of the canonical form `prefix_N` and any
`k > 0`, the window is exactly the ids `prefix_i` for every index `i`
between `N - k` (clamped at zero by the truncated subtraction) and
`N + k` inclusive. -/
theorem getIdRange_window (pre : String) (N k : Nat) (hk : 0 < k) :
    getIdRange (pre ++ "_" ++ natRepr N) k =
      ((List.range (N + k + 1)).filter (fun i => decide (N - k ≤ i))).map
        (fun i => pre ++ "_" ++ natRepr i) := by
  rw [getIdRange, matchIdSuffix_canonical, range_filter_eq_range']

/-- Claim C5 witness: the window of `"doc123_5"` with `k = 1`, computed
through the general theorem at `pre = "doc123"`, `N = 5`. -/
theorem getIdRange_window_witness :
    0 < 1 ∧ getIdRange "doc123_5" 1 = ["doc123_4", "doc123_5", "doc123_6"] := by
  refine ⟨by decide, ?_⟩
  have h := getIdRange_window "doc123" 5 1 (by decide)
  have h2 : "doc123" ++ "_" ++ natRepr 5 = "doc123_5" := by decide
  rw [h2] at h
  rw [h]
  decide

/-! ### Claim C9 -/

/-- Claim C9: in the translated vector-store range condition, a bound is
kept exactly when it is present with a nonzero (truthy) value; a
legitimate `0` bound is silently dropped, leaving that side
unbounded. -/
theorem range_zero_bound_dropped (f : String) (g l : Option Int) :
    ∃ c : PCCondition,
      (filterToPCQuery
          [{ terms := none, range := some [(f, { gte := g, lte := l })] }]).and = [c] ∧
      c.field = f ∧ c.cin = none ∧
      (∀ v : Int, c.gte = some v ↔ (g = some v ∧ v ≠ 0)) ∧
      (∀ v : Int, c.lte = some v ↔ (l = some v ∧ v ≠ 0)) ∧
      (g = some 0 → c.gte = none) ∧ (l = some 0 → c.lte = none) := by
  refine ⟨_, rfl, rfl, rfl, ?_, ?_, ?_, ?_⟩
  · intro v
    cases g with
    | none => simp [truthyInt]
    | some w =>
      by_cases hw : w = 0
      · subst hw
        simp only [truthyInt, decide_not, decide_eq_true_eq]
        simp
        exact fun h => h.symm
      · simp only [truthyInt, decide_eq_true_eq]
        rw [if_pos hw]
        constructor
        · rintro h; cases h; exact ⟨rfl, hw⟩
        · rintro ⟨h, _⟩; exact h
  · intro v
    cases l with
    | none => simp [truthyInt]
    | some w =>
      by_cases hw : w = 0
      · subst hw
        simp only [truthyInt, decide_not, decide_eq_true_eq]
        simp
        exact fun h => h.symm
      · simp only [truthyInt, decide_eq_true_eq]
        rw [if_pos hw]
        constructor
        · rintro h; cases h; exact ⟨rfl, hw⟩
        · rintro ⟨h, _⟩; exact h
  · rintro rfl
    simp [truthyInt]
  · rintro rfl
    simp [truthyInt]

/-! ### Lemmas: the union/dedup reducer -/

lemma mem_addUnique {l : List String} {x y : String} :
    y ∈ addUnique l x ↔ y ∈ l ∨ y = x := by
  rw [addUnique]
  by_cases h : l.contains x
  · rw [if_pos h]
    constructor
    · exact Or.inl
    · rintro (hy | rfl)
      · exact hy
      · exact List.elem_iff.mp h
  · rw [if_neg h]
    simp

/-- The documents emitted by the similarity pass: one per match with
metadata, in order. -/
def simEmits (sims : List SimHit) : List (String × Document) :=
  sims.filterMap (fun h => h.metadata.map (fun m => (h.id, docOfSim h m)))

lemma mem_simEmits {sims : List SimHit} {p : String × Document} :
    p ∈ simEmits sims ↔
      ∃ h ∈ sims, ∃ m, h.metadata = some m ∧ p = (h.id, docOfSim h m) := by
  simp only [simEmits, List.mem_filterMap, Option.map_eq_some']
  constructor
  · rintro ⟨h, hh, m, hm, hp⟩
    exact ⟨h, hh, m, hm, hp.symm⟩
  · rintro ⟨h, hh, m, hm, hp⟩
    exact ⟨h, hh, m, hm, hp.symm⟩

lemma foldl_simStep_docs (sims : List SimHit) :
    ∀ st : RState, (sims.foldl simStep st).docs = st.docs ++ simEmits sims := by
  induction sims with
  | nil => intro st; simp [simEmits]
  | cons h rest ih =>
    intro st
    rw [List.foldl_cons, ih]
    cases hm : h.metadata <;>
      simp [simStep, simEmits, hm, List.filterMap_cons]

lemma mem_foldl_simStep_ids (sims : List SimHit) :
    ∀ (st : RState) (x : String),
      x ∈ (sims.foldl simStep st).ids ↔ x ∈ st.ids ∨ ∃ h ∈ sims, h.id = x := by
  induction sims with
  | nil => intro st x; simp
  | cons h rest ih =>
    intro st x
    rw [List.foldl_cons, ih]
    simp only [simStep, mem_addUnique, List.mem_cons]
    constructor
    · rintro ((hx | hx) | ⟨h2, hh2, hx⟩)
      · exact Or.inl hx
      · exact Or.inr ⟨h, Or.inl rfl, hx.symm⟩
      · exact Or.inr ⟨h2, Or.inr hh2, hx⟩
    · rintro (hx | ⟨h2, (rfl | hh2), hx⟩)
      · exact Or.inl (Or.inl hx)
      · exact Or.inl (Or.inr hx.symm)
      · exact Or.inr ⟨h2, hh2, hx⟩

lemma foldl_kwStep_ids_mono (kws : List KwHit) :
    ∀ (st : RState) (x : String), x ∈ st.ids → x ∈ (kws.foldl kwStep st).ids := by
  induction kws with
  | nil => intro st x hx; exact hx
  | cons h rest ih =>
    intro st x hx
    rw [List.foldl_cons]
    refine ih _ x ?_
    rw [kwStep]
    by_cases hc : st.ids.contains h.id
    · rw [if_pos hc]; exact hx
    · rw [if_neg hc]; exact List.mem_append_left _ hx

lemma foldl_kwStep_docs_mono (kws : List KwHit) :
    ∀ (st : RState) (p : String × Document),
      p ∈ st.docs → p ∈ (kws.foldl kwStep st).docs := by
  induction kws with
  | nil => intro st p hp; exact hp
  | cons h rest ih =>
    intro st p hp
    rw [List.foldl_cons]
    refine ih _ p ?_
    rw [kwStep]
    by_cases hc : st.ids.contains h.id
    · rw [if_pos hc]; exact hp
    · rw [if_neg hc]; exact List.mem_append_left _ hp

lemma foldl_kwStep_docs_cases (kws : List KwHit) :
    ∀ (st : RState) (p : String × Document), p ∈ (kws.foldl kwStep st).docs →
      p ∈ st.docs ∨ (p.1 ∉ st.ids ∧ ∃ h ∈ kws, h.id = p.1 ∧ p.2 = docOfKw h) := by
  induction kws with
  | nil => intro st p hp; exact Or.inl hp
  | cons h rest ih =>
    intro st p hp
    rw [List.foldl_cons] at hp
    have hsub : ∀ x, x ∈ st.ids → x ∈ (kwStep st h).ids := by
      intro x hx
      rw [kwStep]
      by_cases hc : st.ids.contains h.id
      · rw [if_pos hc]; exact hx
      · rw [if_neg hc]; exact List.mem_append_left _ hx
    rcases ih _ p hp with hp2 | ⟨hnotin, h2, hh2, hid2, hdoc2⟩
    · rw [kwStep] at hp2
      by_cases hc : st.ids.contains h.id
      · rw [if_pos hc] at hp2
        exact Or.inl hp2
      · rw [if_neg hc] at hp2
        rcases List.mem_append.mp hp2 with hp3 | hp3
        · exact Or.inl hp3
        · have hp4 : p = (h.id, docOfKw h) := List.mem_singleton.mp hp3
          refine Or.inr ⟨?_, h, List.mem_cons_self h rest, ?_, ?_⟩
          · rw [hp4]
            intro hin
            exact hc (List.elem_iff.mpr hin)
          · rw [hp4]
          · rw [hp4]
    · refine Or.inr ⟨fun hin => hnotin (hsub _ hin), h2, List.mem_cons_of_mem h hh2,
        hid2, hdoc2⟩

lemma simEmits_fst_sublist (sims : List SimHit) :
    ((simEmits sims).map Prod.fst).Sublist (sims.map SimHit.id) := by
  induction sims with
  | nil => simp [simEmits]
  | cons h rest ih =>
    cases hm : h.metadata with
    | none =>
      rw [simEmits, List.filterMap_cons, hm]
      exact List.Sublist.cons h.id ih
    | some m =>
      rw [simEmits, List.filterMap_cons, hm]
      exact List.Sublist.cons₂ h.id ih

lemma simPass_state_inv (sims : List SimHit)
    (hnd : (sims.map SimHit.id).Nodup) :
    ((sims.foldl simStep { ids := [], docs := [] }).docs.map Prod.fst).Nodup ∧
      ∀ p ∈ (sims.foldl simStep { ids := [], docs := [] }).docs,
        p.1 ∈ (sims.foldl simStep { ids := [], docs := [] }).ids := by
  constructor
  · rw [foldl_simStep_docs]
    simp only [List.nil_append]
    exact List.Nodup.sublist (simEmits_fst_sublist sims) hnd
  · intro p hp
    rw [foldl_simStep_docs] at hp
    simp only [List.nil_append] at hp
    rcases mem_simEmits.mp hp with ⟨h, hh, m, _, hp2⟩
    rw [mem_foldl_simStep_ids]
    exact Or.inr ⟨h, hh, by rw [hp2]⟩

lemma foldl_kwStep_inv (kws : List KwHit) :
    ∀ st : RState,
      ((st.docs.map Prod.fst).Nodup ∧ ∀ p ∈ st.docs, p.1 ∈ st.ids) →
      (((kws.foldl kwStep st).docs.map Prod.fst).Nodup ∧
        ∀ p ∈ (kws.foldl kwStep st).docs, p.1 ∈ (kws.foldl kwStep st).ids) := by
  induction kws with
  | nil => intro st hst; exact hst
  | cons h rest ih =>
    intro st hst
    rw [List.foldl_cons]
    refine ih _ ?_
    rw [kwStep]
    by_cases hc : st.ids.contains h.id
    · rw [if_pos hc]; exact hst
    · rw [if_neg hc]
      obtain ⟨hnd, hmem⟩ := hst
      have hnotin : h.id ∉ st.docs.map Prod.fst := by
        intro hin
        rcases List.mem_map.mp hin with ⟨p, hp, hp2⟩
        exact hc (List.elem_iff.mpr (hp2 ▸ hmem p hp))
      constructor
      · simp only [List.map_append, List.map_cons, List.map_nil]
        rw [List.nodup_append]
        refine ⟨hnd, List.nodup_singleton _, ?_⟩
        intro a ha hb
        rw [List.mem_singleton] at hb
        exact hnotin (hb ▸ ha)
      · intro p hp
        rcases List.mem_append.mp hp with hp2 | hp2
        · exact List.mem_append_left _ (hmem p hp2)
        · have hp3 : p = (h.id, docOfKw h) := List.mem_singleton.mp hp2
          rw [hp3]
          exact List.mem_append_right _ (List.mem_singleton.mpr rfl)

/-! ### Claim C3 -/

/-- Concrete Pinecone metadata used in the counterexamples/witnesses. -/
def mCex : PCMeta :=
  { rec_id := "r", page_number := 1, isbn_number := "i", text := "t",
    title := "T", company_name := "A", publication_date := 0 }

/-- Concrete OpenSearch source used in the counterexamples/witnesses,
with metadata different from `mCex`. -/
def srcCex : OSSource :=
  { rec_id := "r2", page_number := 2, isbn_number := "i2", text := "t2",
    title := "T2", author := "B", publication_date := 1 }

/-- Claim C3 counterexample: the reducer never checks the seen set for
similarity hits, so a similarity list that itself repeats a chunk id
produces that chunk id twice in the output. -/
theorem dedup_unique_ids_cex :
    ¬ (((dedupDocs
          [{ id := "a_1", metadata := some mCex },
           { id := "a_1", metadata := some mCex }] []).map Prod.fst).Nodup) := by
  decide

/-- Claim C3 (amended): provided the similarity hit list contains no
duplicate chunk ids, the reducer's output contains each chunk id at
most once, for every keyword hit list. -/
theorem dedup_unique_ids (simHits : List SimHit) (kwHits : List KwHit)
    (hnd : (simHits.map SimHit.id).Nodup) :
    ((dedupDocs simHits kwHits).map Prod.fst).Nodup :=
  (foldl_kwStep_inv kwHits _ (simPass_state_inv simHits hnd)).1

/-- Claim C3 witness: one similarity hit and one keyword hit sharing the
chunk id `a_1`; the output lists `a_1` once. -/
theorem dedup_unique_ids_witness :
    (([{ id := "a_1", metadata := some mCex }] : List SimHit).map SimHit.id).Nodup ∧
      ((dedupDocs [{ id := "a_1", metadata := some mCex }]
          [{ id := "a_1", source := srcCex }]).map Prod.fst).Nodup :=
  ⟨by decide, dedup_unique_ids _ _ (by decide)⟩

/-! ### Claim C2 -/

/-- Claim C2: when a chunk id `X` is returned by the similarity backend
(with metadata) and also by the keyword backend, every output entry for
`X` is the similarity-derived document — similarity-backend metadata
wins the tie — and that document is indeed in the output.  The
similarity list is assumed to list each chunk id once (backends return
distinct ids per query), which is what makes "the output Hit for X"
well defined. -/
theorem dedup_precedence (simHits : List SimHit) (kwHits : List KwHit)
    (X : String) (h : SimHit) (m : PCMeta)
    (hmem : h ∈ simHits) (hid : h.id = X) (hm : h.metadata = some m)
    (k : KwHit) (hk : k ∈ kwHits) (hkid : k.id = X)
    (hnd : (simHits.map SimHit.id).Nodup) :
    (X, docOfSim h m) ∈ dedupDocs simHits kwHits ∧
      ∀ p ∈ dedupDocs simHits kwHits, p.1 = X → p.2 = docOfSim h m := by
  have hst0 : (X, docOfSim h m) ∈
      (simHits.foldl simStep { ids := [], docs := [] }).docs := by
    rw [foldl_simStep_docs]
    simp only [List.nil_append]
    exact mem_simEmits.mpr ⟨h, hmem, m, hm, by rw [hid]⟩
  constructor
  · exact foldl_kwStep_docs_mono kwHits _ _ hst0
  · intro p hp hpX
    rcases foldl_kwStep_docs_cases kwHits _ p hp with hp2 | ⟨hnotin, _, _, _, _⟩
    · rw [foldl_simStep_docs] at hp2
      simp only [List.nil_append] at hp2
      rcases mem_simEmits.mp hp2 with ⟨h2, hh2, m2, hm2, hp3⟩
      have hid2 : h2.id = h.id := by
        have : p.1 = h2.id := by rw [hp3]
        rw [hpX] at this
        rw [← this, hid]
      have heq : h2 = h := List.inj_on_of_nodup_map hnd hh2 hmem hid2
      rw [heq] at hm2
      have hmeq : m2 = m := by
        rw [hm] at hm2
        exact (Option.some_inj.mp hm2).symm
      rw [hp3, heq, hmeq]
    · exfalso
      refine hnotin ?_
      rw [hpX, ← hid]
      rw [mem_foldl_simStep_ids]
      exact Or.inr ⟨h, hmem, rfl⟩

/-- Claim C2 witness: chunk id `a_1` appears in both backends with
different metadata; the output entry for `a_1` is the
similarity-derived document. -/
theorem dedup_precedence_witness :
    (("a_1", docOfSim { id := "a_1", metadata := some mCex } mCex) ∈
        dedupDocs [{ id := "a_1", metadata := some mCex }]
          [{ id := "a_1", source := srcCex }]) ∧
      ∀ p ∈ dedupDocs [{ id := "a_1", metadata := some mCex }]
          [{ id := "a_1", source := srcCex }],
        p.1 = "a_1" → p.2 = docOfSim { id := "a_1", metadata := some mCex } mCex :=
  dedup_precedence _ _ "a_1" _ mCex (by decide) rfl rfl
    { id := "a_1", source := srcCex } (by decide) rfl (by decide)

/-! ### Claim C10 -/

/-- Claim C10: a chunk id whose similarity hits all lack metadata is
recorded as seen but contributes no document; the matching keyword hit
is skipped by the seen-check, so the id contributes nothing at all. -/
theorem absent_metadata_drops_chunk (simHits : List SimHit)
    (kwHits : List KwHit) (X : String)
    (hX : ∃ h ∈ simHits, h.id = X)
    (hnone : ∀ h ∈ simHits, h.id = X → h.metadata = none) :
    X ∈ (dedupState simHits kwHits).ids ∧
      ∀ p ∈ dedupDocs simHits kwHits, p.1 ≠ X := by
  constructor
  · refine foldl_kwStep_ids_mono kwHits _ X ?_
    rw [mem_foldl_simStep_ids]
    exact Or.inr hX
  · intro p hp hpX
    rcases foldl_kwStep_docs_cases kwHits _ p hp with hp2 | ⟨hnotin, _, _, _, _⟩
    · rw [foldl_simStep_docs] at hp2
      simp only [List.nil_append] at hp2
      rcases mem_simEmits.mp hp2 with ⟨h2, hh2, m2, hm2, hp3⟩
      have hid2 : h2.id = X := by
        have : p.1 = h2.id := by rw [hp3]
        rw [← this, hpX]
      rw [hnone h2 hh2 hid2] at hm2
      exact Option.noConfusion hm2
    · refine hnotin ?_
      rw [hpX, mem_foldl_simStep_ids]
      exact Or.inr hX

/-- Claim C10 witness: one similarity hit for `a_1` without metadata and
one keyword hit for `a_1`; the id is seen but no output entry carries
it. -/
theorem absent_metadata_drops_chunk_witness :
    "a_1" ∈ (dedupState [{ id := "a_1", metadata := none }]
        [{ id := "a_1", source := srcCex }]).ids ∧
      ∀ p ∈ dedupDocs [{ id := "a_1", metadata := none }]
          [{ id := "a_1", source := srcCex }],
        p.1 ≠ "a_1" :=
  absent_metadata_drops_chunk _ _ "a_1"
    ⟨{ id := "a_1", metadata := none }, by decide, rfl⟩ (by decide)

/-! ### Claim C6 -/

lemma mem_foldl_addUnique (ys : List String) :
    ∀ (acc : List String) (x : String),
      x ∈ ys.foldl addUnique acc ↔ x ∈ acc ∨ x ∈ ys := by
  induction ys with
  | nil => intro acc x; simp
  | cons y rest ih =>
    intro acc x
    rw [List.foldl_cons, ih, mem_addUnique]
    simp only [List.mem_cons]
    tauto

lemma mem_union_fold (idSet : List String) (extK : Nat) :
    ∀ (acc : List String) (x : String),
      x ∈ idSet.foldl (fun acc id => (getIdRange id extK).foldl addUnique acc) acc ↔
        x ∈ acc ∨ ∃ id ∈ idSet, x ∈ getIdRange id extK := by
  induction idSet with
  | nil => intro acc x; simp
  | cons i rest ih =>
    intro acc x
    rw [List.foldl_cons, ih, mem_foldl_addUnique]
    simp only [List.mem_cons]
    constructor
    · rintro ((hx | hx) | ⟨j, hj, hx⟩)
      · exact Or.inl hx
      · exact Or.inr ⟨i, Or.inl rfl, hx⟩
      · exact Or.inr ⟨j, Or.inr hj, hx⟩
    · rintro (hx | ⟨j, (rfl | hj), hx⟩)
      · exact Or.inl (Or.inl hx)
      · exact Or.inl (Or.inr hx)
      · exact Or.inr ⟨j, hj, hx⟩

/-- Claim C6: the expansion candidate set is exactly the union of the
windows over the seen ids minus the seen id set; in particular no
candidate is an id that was already present before expansion. -/
theorem expansion_candidates_exclusive (idSet : List String) (extK : Nat)
    (hk : 0 < extK) (c : String) :
    c ∈ expansionCandidates idSet extK ↔
      ((∃ id ∈ idSet, c ∈ getIdRange id extK) ∧ c ∉ idSet) := by
  rw [expansionCandidates]
  simp only [List.mem_filter, Bool.not_eq_true']
  rw [mem_union_fold]
  constructor
  · rintro ⟨(hc | hc), hnc⟩
    · exact absurd hc (List.not_mem_nil c)
    · refine ⟨hc, fun hin => ?_⟩
      have hcon : idSet.contains c = true := List.elem_iff.mpr hin
      rw [hcon] at hnc
      exact Bool.noConfusion hnc
  · rintro ⟨hc, hnc⟩
    refine ⟨Or.inr hc, ?_⟩
    cases hcon : idSet.contains c with
    | false => rfl
    | true => exact absurd (List.elem_iff.mp hcon) hnc

/-- Claim C6 witness: with seen set `{doc_1}` and `k = 1`, the candidate
`doc_2` is characterised by the theorem; in particular it is not in the
pre-expansion seen set. -/
theorem expansion_candidates_exclusive_witness :
    0 < 1 ∧
      (("doc_2" ∈ expansionCandidates ["doc_1"] 1) ↔
        ((∃ id ∈ ["doc_1"], "doc_2" ∈ getIdRange id 1) ∧ "doc_2" ∉ ["doc_1"])) :=
  ⟨by decide, expansion_candidates_exclusive ["doc_1"] 1 (by decide) "doc_2"⟩

/-! ### Lemmas: the group merger -/

lemma combineLoop_const_id (p : String) :
    ∀ (rest : List Document), (∀ d ∈ rest, d.id = p) →
      ∀ (acc g : List Document),
        combineLoop rest acc g (some p) = flushGroup (g ++ rest) acc := by
  intro rest
  induction rest with
  | nil =>
    intro _ acc g
    rw [combineLoop, List.append_nil]
  | cons d rest ih =>
    intro hall acc g
    rw [combineLoop, if_pos (by rw [hall d (List.mem_cons_self d rest)])]
    rw [ih (fun x hx => hall x (List.mem_cons_of_mem d hx)) acc (g ++ [d])]
    rw [List.append_assoc]
    rfl

lemma combineDocs_const_id (p : String) (d : Document) (ds : List Document)
    (hd : d.id = p) (hds : ∀ x ∈ ds, x.id = p) :
    combineDocs (d :: ds) =
      [{ d with text := String.intercalate "\n" ((d :: ds).map Document.text) }] := by
  rw [combineDocs, combineLoop, if_neg (by simp)]
  rw [combineLoop_const_id d.id ds (fun x hx => by rw [hds x hx, hd])]
  rfl

lemma pairwise_strict_of_bySortId {l : List Document}
    (hs : l.Pairwise bySortId) (hnd : (l.map Document.sort_id).Nodup) :
    l.Pairwise strictBySortId := by
  have hne : l.Pairwise (fun a b => a.sort_id ≠ b.sort_id) :=
    List.pairwise_map.mp hnd
  exact (hs.and hne).imp (fun hab => Nat.lt_of_le_of_ne hab.1 hab.2)

lemma pairwise_bySortId_of_docLE {l : List Document} {p : String}
    (hid : ∀ d ∈ l, d.id = p) (hs : l.Pairwise docLE) :
    l.Pairwise bySortId := by
  refine List.Pairwise.imp_of_mem ?_ hs
  intro a b ha hb hab
  rcases hab with hab | hab
  · rw [hid a ha, hid b hb] at hab
    exact absurd hab (lt_irrefl _)
  · exact hab.2

lemma sortDocs_eq_ascending (docs docs2 : List Document) (p : String)
    (hperm : docs2.Perm docs) (hid : ∀ d ∈ docs, d.id = p)
    (hnd : (docs.map Document.sort_id).Nodup) :
    sortDocs docs2 = specAscendingBySortIndex docs := by
  have hperm_s : (sortDocs docs2).Perm docs :=
    (List.perm_insertionSort docLE docs2).trans hperm
  have hperm_t : (specAscendingBySortIndex docs).Perm docs :=
    List.perm_insertionSort bySortId docs
  have hid_s : ∀ d ∈ sortDocs docs2, d.id = p :=
    fun d hd => hid d (hperm_s.mem_iff.mp hd)
  have hnd_s : ((sortDocs docs2).map Document.sort_id).Nodup :=
    ((hperm_s.map Document.sort_id).nodup_iff).mpr hnd
  have hnd_t : ((specAscendingBySortIndex docs).map Document.sort_id).Nodup :=
    ((hperm_t.map Document.sort_id).nodup_iff).mpr hnd
  have hsort_s : (sortDocs docs2).Pairwise docLE :=
    List.sorted_insertionSort docLE docs2
  have hsort_t : (specAscendingBySortIndex docs).Pairwise bySortId :=
    List.sorted_insertionSort bySortId docs
  have hstrict_s : (sortDocs docs2).Pairwise strictBySortId :=
    pairwise_strict_of_bySortId (pairwise_bySortId_of_docLE hid_s hsort_s) hnd_s
  have hstrict_t : (specAscendingBySortIndex docs).Pairwise strictBySortId :=
    pairwise_strict_of_bySortId hsort_t hnd_t
  exact List.eq_of_perm_of_sorted (hperm_s.trans hperm_t.symm) hstrict_s hstrict_t

/-! ### Claim C7 -/

/-- Claim C7: for any group of chunks sharing one parent id (with
pairwise-distinct sort indices, so that the ascending order is unique),
the sort-then-group pipeline produces, for any input order, exactly one
passage whose text is the members' texts joined by a newline in
ascending sort-index order and whose remaining fields come from the
member with the lowest sort index. -/
theorem group_merge_single_parent (docs docs2 : List Document) (p : String)
    (hperm : docs2.Perm docs) (hne : docs ≠ [])
    (hid : ∀ d ∈ docs, d.id = p)
    (hnd : (docs.map Document.sort_id).Nodup) :
    combineDocs (sortDocs docs2) =
      [{ (specAscendingBySortIndex docs).headI with
          text := String.intercalate "\n"
            ((specAscendingBySortIndex docs).map Document.text) }] := by
  rw [sortDocs_eq_ascending docs docs2 p hperm hid hnd]
  have hperm_t : (specAscendingBySortIndex docs).Perm docs :=
    List.perm_insertionSort bySortId docs
  have hid_t : ∀ d ∈ specAscendingBySortIndex docs, d.id = p :=
    fun d hd => hid d (hperm_t.mem_iff.mp hd)
  cases ht : specAscendingBySortIndex docs with
  | nil =>
    exfalso
    have := hperm_t.length_eq
    rw [ht] at this
    exact hne (List.length_eq_zero.mp this.symm)
  | cons d ds =>
    rw [ht] at hid_t
    rw [combineDocs_const_id p d ds (hid_t d (List.mem_cons_self d ds))
      (fun x hx => hid_t x (List.mem_cons_of_mem d hx))]
    rfl

/-- Concrete chunks of one parent `p` for the grouping witness. -/
def dCex (i : Nat) (t : String) : Document :=
  { sort_id := i, id := "p", page_number := 1, text := t, title := "T",
    author := "A", isbn_number := "i", publication_date := 0 }

/-- Claim C7 witness: the scrambled group `{p_2, p_0, p_1}` merges into
one passage built from the ascending order `p_0, p_1, p_2`. -/
theorem group_merge_single_parent_witness :
    combineDocs (sortDocs [dCex 2 "t2", dCex 0 "t0", dCex 1 "t1"]) =
      [{ (specAscendingBySortIndex [dCex 0 "t0", dCex 1 "t1", dCex 2 "t2"]).headI with
          text := String.intercalate "\n"
            ((specAscendingBySortIndex
              [dCex 0 "t0", dCex 1 "t1", dCex 2 "t2"]).map Document.text) }] :=
  group_merge_single_parent [dCex 0 "t0", dCex 1 "t1", dCex 2 "t2"]
    [dCex 2 "t2", dCex 0 "t0", dCex 1 "t1"] "p"
    (by decide) (by decide) (by decide) (by decide)

/-! ### Claim C8 -/

lemma sciDocList_error_of_miss (pg : Option (List JournalData)) :
    ∀ (docs : List SciDoc) (d : SciDoc), d ∈ docs →
      lookupRecord pg d.id = none →
      sciDocList pg docs = Except.error "Record not found" := by
  intro docs
  induction docs with
  | nil => intro d hd; exact absurd hd (List.not_mem_nil d)
  | cons doc rest ih =>
    intro d hd hmiss
    rw [sciDocList]
    rcases List.mem_cons.mp hd with rfl | hd2
    · rw [hmiss]
    · cases hl : lookupRecord pg doc.id with
      | none => rfl
      | some record =>
        rw [ih d hd2 hmiss]

/-- Claim C8: in the cross-reference citation variant, if the
relational lookup yields no record for some passage's identifier —
including when a relational batch call errors, which makes `getMeta`
return `null` and every lookup miss — the whole request fails with
`Record not found`; no partial citation list is returned. -/
theorem sci_citation_miss_fatal
    (call : List String → Except Unit (List JournalData))
    (docs : List SciDoc) (d : SciDoc) (hd : d ∈ docs)
    (hmiss : lookupRecord (getMeta call (uniqueIds docs)) d.id = none) :
    sciSearchTail call docs = Except.error "Record not found" :=
  sciDocList_error_of_miss _ docs d hd hmiss

/-- Claim C8 witness: a relational store whose batch call errors; the
lookup for the only passage misses and the whole request fails. -/
theorem sci_citation_miss_fatal_witness :
    sciSearchTail (fun _ => Except.error ())
        [{ id := "10.1/xyz", text := "txt", journal := "J", date := "2023-11" }] =
      Except.error "Record not found" :=
  sci_citation_miss_fatal (fun _ => Except.error ())
    [{ id := "10.1/xyz", text := "txt", journal := "J", date := "2023-11" }]
    { id := "10.1/xyz", text := "txt", journal := "J", date := "2023-11" }
    (by decide)
    (by rw [getMeta, getMetaLoop]; rfl)
